import Mathlib

/-!
Verification of the go-kamailio-binrpc codec (BINRPC wire protocol).

This file is a shallow embedding of the v3 source (`binrpc.go` of the v3
module, given as `src/unnamed/part_001`), which is the version the
specification describes.  Byte streams are modelled as `List Nat` whose
elements stand for bytes (an `io.Reader` can only ever produce values
below 256; theorems that depend on this carry it as an explicit
hypothesis).  Go `int` is modelled as `Int`, with 64-bit wraparound made
explicit exactly where the source can overflow (the record-value
accumulation loop); Go `uint32` conversions are modelled as `% 2^32`.
Go `float64` is modelled exactly: a binary64 value is a dyadic rational
`m * 2 ^ e` in canonical form, and the two floating-point operations of
the codec (`v * 1000` and `float64(k) / 1000.0`) round the exact result
to a 53-bit significand, nearest, ties to even — IEEE 754 binary64
semantics on the normal range, which covers every magnitude this codec
can produce.
-/

namespace Binrpc

/-- BINRPC type tags, `TypeInt` .. `TypeBytes` in the source. -/
def TypeInt : Nat := 0x0

/-- Tag of string records. -/
def TypeString : Nat := 0x1

/-- Tag of fixed-point double records. -/
def TypeDouble : Nat := 0x2

/-- Tag of struct records (also used by the end-of-struct sentinel). -/
def TypeStruct : Nat := 0x3

/-- Tag of array records (not implemented by the codec). -/
def TypeArray : Nat := 0x4

/-- Tag of attribute-name records, used as struct keys. -/
def TypeAVP : Nat := 0x5

/-- Tag of raw-byte records (not implemented by the codec). -/
def TypeBytes : Nat := 0x6

/-- Magic nibble at the start of every packet (`BinRPCMagic`). -/
def BinRPCMagic : Nat := 0xA

/-- Protocol version nibble (`BinRPCVersion`). -/
def BinRPCVersion : Nat := 0x1

/-- `MaxSizeOfLength`: the header length field width cannot exceed 4. -/
def MaxSizeOfLength : Nat := 4

/-- Error outcomes of the codec.  Each constructor corresponds to one
`errors.New` / `fmt.Errorf` site of the source; `endOfStruct` is the
internal `errEndOfStruct` sentinel error, `fuel` is an artifact of the
fuel-based embedding of the recursion (proved unreachable where it
matters, and never produced by any of the concrete inputs below). -/
inductive Err where
  | endOfStruct
  | fuel
  | headerShort
  | magicMismatch
  | versionMismatch
  | lengthShort
  | cookieShort
  | recordHeaderShort
  | recordSizeShort
  | recordValueShort
  | structNotAvp (t : Nat)
  | typeNotImpl (t : Nat)
  | cookieMismatch
  | payloadShort
  | missingValues
  | typeConvert
  | encodeType
  | lengthTooBig
deriving DecidableEq, Repr

/-- Model of reading exactly `n` bytes through `r.Read(buf)` followed by
the `len != n` check, for a reader over a byte list: `bytes.Reader`
returns `io.EOF` whenever no byte is left (even for an empty request),
and a short read trips the length check.  The second component is the
stream after the call (a failed read consumes what was available). -/
def readN (n : Nat) (s : List Nat) : Option (List Nat) × List Nat :=
  if 0 < s.length ∧ n ≤ s.length then (some (s.take n), s.drop n)
  else (none, s.drop n)

/-- Model of `io.ReadFull`: succeeds exactly when `n` bytes are
available (a zero-length request succeeds even at end of stream). -/
def readFull (n : Nat) (s : List Nat) : Option (List Nat) × List Nat :=
  if n ≤ s.length then (some (s.take n), s.drop n)
  else (none, s.drop n)

/-- Big-endian accumulation `acc = acc<<8 + int(b)`, used by the source
for the header length field and for record sizes.  These loops run over
at most 7 bytes, so the Go `int` never overflows and plain `Nat`
arithmetic is faithful. -/
def beNat (l : List Nat) : Nat :=
  l.foldl (fun acc b => acc * 256 + b) 0

/-- Reduce an integer into the signed 64-bit range, i.e. the value a Go
`int` holds after a wrapping operation. -/
def wrap64 (z : Int) : Int :=
  (z + 2 ^ 63) % 2 ^ 64 - 2 ^ 63

/-- The signed 64-bit value whose unsigned residue is `u` (assuming
`u < 2^64`). -/
def toSigned64 (u : Nat) : Int :=
  if u < 2 ^ 63 then (u : Int) else (u : Int) - 2 ^ 64

/-- The record-value accumulation loop
`record.Value = record.Value.(int)<<8 + int(b)` of `ReadRecord`, over a
Go `int`: each step wraps at 64 bits. -/
def accumInt (l : List Nat) : Int :=
  l.foldl (fun (acc : Int) (b : Nat) => wrap64 (acc * 256 + (b : Int))) 0

/-- Loop of `getMinBinarySizeOfInt`:
`for size = 4; size > 0 && ((n & (0xff << 24)) == 0); size-- { n <<= 8 }`.
The mask test `(n & (0xff << 24)) == 0` says that bits 24..31 of `n`
are all zero, i.e. `n / 2^24 % 2^8 = 0`; the shift is on a `uint32`
and therefore wraps modulo `2^32`. -/
def gmLoop : Nat → Nat → Nat
  | _, 0 => 0
  | n, size + 1 =>
    if n / 2 ^ 24 % 2 ^ 8 = 0 then gmLoop (n * 2 ^ 8 % 2 ^ 32) size
    else size + 1

/-- `getMinBinarySizeOfInt` (v3): the argument is first converted to
`uint32` (`n := uint32(value)`), then the loop above is run with
`size = 4`. -/
def getMinBinarySizeOfInt (value : Int) : Nat :=
  gmLoop (value % (2 ^ 32 : Int)).toNat 4

/-- Filling loop of `intToBytesBE`: writes `byte(n)` at the end and
recurses with the arithmetic shift `n >>= 8` (floor division, which for
the positive divisor 256 agrees with Euclidean division). -/
def intToBytesBEAux : Int → Nat → List Nat
  | _, 0 => []
  | n, size + 1 => intToBytesBEAux (Int.ediv n 256) size ++ [(Int.emod n 256).toNat]

/-- `intToBytesBE` (v3): the minimal big-endian byte string of `n`,
whose length is `getMinBinarySizeOfInt n`. -/
def intToBytesBE (n : Int) : List Nat :=
  intToBytesBEAux n (getMinBinarySizeOfInt n)

/-- The minimal byte count the specification describes for
`minimalSize`: the smallest count from 1,2,3,4 (extended to 8)
sufficient to hold `n` in two's-complement big-endian form.  This
definition follows the words of the specification and is compared with
`getMinBinarySizeOfInt` from the source. -/
def twosComplementMinSize (n : Int) : Nat :=
  if -(2 ^ 7) ≤ n ∧ n < 2 ^ 7 then 1
  else if -(2 ^ 15) ≤ n ∧ n < 2 ^ 15 then 2
  else if -(2 ^ 23) ≤ n ∧ n < 2 ^ 23 then 3
  else if -(2 ^ 31) ≤ n ∧ n < 2 ^ 31 then 4
  else 8

/-- Closed form of what `getMinBinarySizeOfInt` actually computes: the
minimal unsigned big-endian width of `uint32 value`, with result 0 when
`uint32 value = 0`. -/
def specMinUnsigned (u : Nat) : Nat :=
  if u = 0 then 0
  else if u < 2 ^ 8 then 1
  else if u < 2 ^ 16 then 2
  else if u < 2 ^ 24 then 3
  else 4

theorem gmLoop_closed (u : Nat) (hu : u < 2 ^ 32) :
    gmLoop u 4 = specMinUnsigned u := by
  simp only [gmLoop, specMinUnsigned]
  split_ifs <;> omega

theorem uint32_lt (value : Int) : (value % (2 ^ 32 : Int)).toNat < 2 ^ 32 := by
  have h1 : 0 ≤ value % (2 ^ 32 : Int) := Int.emod_nonneg value (by norm_num)
  have h2 : value % (2 ^ 32 : Int) < 2 ^ 32 := Int.emod_lt_of_pos value (by norm_num)
  omega

theorem getMinBinarySizeOfInt_eq (value : Int) :
    getMinBinarySizeOfInt value = specMinUnsigned (value % (2 ^ 32 : Int)).toNat :=
  gmLoop_closed _ (uint32_lt value)

theorem getMinBinarySizeOfInt_le (value : Int) : getMinBinarySizeOfInt value ≤ 4 := by
  rw [getMinBinarySizeOfInt_eq]
  unfold specMinUnsigned
  split_ifs <;> omega

theorem intToBytesBEAux_length (n : Int) (size : Nat) :
    (intToBytesBEAux n size).length = size := by
  induction size generalizing n with
  | zero => rfl
  | succ s ih => simp [intToBytesBEAux, ih]

theorem intToBytesBE_length (n : Int) :
    (intToBytesBE n).length = getMinBinarySizeOfInt n :=
  intToBytesBEAux_length n _

theorem intToBytesBE_length_le (n : Int) : (intToBytesBE n).length ≤ 4 := by
  rw [intToBytesBE_length]
  exact getMinBinarySizeOfInt_le n

theorem beNat_append_singleton (l : List Nat) (b : Nat) :
    beNat (l ++ [b]) = 256 * beNat l + b := by
  unfold beNat
  rw [List.foldl_append]
  simp [Nat.mul_comm]

theorem beNat_lt_aux (l : List Nat) :
    ∀ a, (∀ b ∈ l, b < 256) →
      List.foldl (fun acc b => acc * 256 + b) a l < (a + 1) * 256 ^ l.length := by
  induction l with
  | nil => intro a _; simpa using Nat.lt_succ_self a
  | cons b t ih =>
    intro a h
    have hb : b < 256 := h b (List.mem_cons_self b t)
    have ht : ∀ x ∈ t, x < 256 := fun x hx => h x (List.mem_cons_of_mem b hx)
    have step := ih (a * 256 + b) ht
    have : (a * 256 + b + 1) * 256 ^ t.length ≤ (a + 1) * 256 ^ (t.length + 1) := by
      have : a * 256 + b + 1 ≤ (a + 1) * 256 := by omega
      calc (a * 256 + b + 1) * 256 ^ t.length
          ≤ (a + 1) * 256 * 256 ^ t.length := Nat.mul_le_mul_right _ this
        _ = (a + 1) * 256 ^ (t.length + 1) := by ring
    simp only [List.foldl_cons, List.length_cons]
    omega

theorem beNat_lt (l : List Nat) (h : ∀ b ∈ l, b < 256) :
    beNat l < 256 ^ l.length := by
  have := beNat_lt_aux l 0 h
  simpa [beNat] using this

theorem wrap64_eq (z : Int) : wrap64 z = toSigned64 (z % (2 ^ 64 : Int)).toNat := by
  unfold wrap64 toSigned64
  split_ifs <;> omega

theorem toSigned64_step (u b : Nat) (hu : u < 2 ^ 64) :
    wrap64 (toSigned64 u * 256 + (b : Int)) = toSigned64 ((u * 256 + b) % 2 ^ 64) := by
  rw [wrap64_eq]
  congr 1
  unfold toSigned64
  split_ifs <;> omega

theorem accumInt_fold_eq (l : List Nat) :
    ∀ u : Nat, u < 2 ^ 64 →
      List.foldl (fun (acc : Int) (b : Nat) => wrap64 (acc * 256 + (b : Int))) (toSigned64 u) l =
        toSigned64 (List.foldl (fun a b => (a * 256 + b) % 2 ^ 64) u l) := by
  induction l with
  | nil => intro u _; rfl
  | cons b t ih =>
    intro u hu
    simp only [List.foldl_cons]
    rw [toSigned64_step u b hu]
    exact ih _ (Nat.mod_lt _ (by norm_num))

theorem beNat_mod_fold (l : List Nat) :
    ∀ u : Nat,
      List.foldl (fun a b => (a * 256 + b) % 2 ^ 64) (u % 2 ^ 64) l =
        (List.foldl (fun a b => a * 256 + b) u l) % 2 ^ 64 := by
  induction l with
  | nil => intro u; rfl
  | cons b t ih =>
    intro u
    simp only [List.foldl_cons]
    have h : (u % 2 ^ 64 * 256 + b) % 2 ^ 64 = (u * 256 + b) % 2 ^ 64 := by omega
    rw [h]
    exact ih (u * 256 + b)

theorem accumInt_eq (l : List Nat) : accumInt l = toSigned64 (beNat l % 2 ^ 64) := by
  have h0 : toSigned64 0 = 0 := by norm_num [toSigned64]
  unfold accumInt beNat
  rw [← h0, accumInt_fold_eq l 0 (by norm_num)]
  congr 1
  have := beNat_mod_fold l 0
  simpa using this

theorem accumInt_eq_of_lt (l : List Nat) (h : beNat l < 2 ^ 63) :
    accumInt l = (beNat l : Int) := by
  rw [accumInt_eq, Nat.mod_eq_of_lt (by omega)]
  unfold toSigned64
  rw [if_pos h]

theorem beNat_intToBytesBEAux (size : Nat) :
    ∀ n : Int, 0 ≤ n →
      (beNat (intToBytesBEAux n size) : Int) = n % (2 ^ (8 * size) : Int) := by
  induction size with
  | zero =>
    intro n _
    simp [intToBytesBEAux, beNat, Int.emod_one]
  | succ s ih =>
    intro n hn
    have hq : 0 ≤ Int.ediv n 256 := Int.ediv_nonneg hn (by norm_num)
    have hr0 : 0 ≤ Int.emod n 256 := Int.emod_nonneg n (by norm_num)
    have hr1 : Int.emod n 256 < 256 := Int.emod_lt_of_pos n (by norm_num)
    simp only [intToBytesBEAux, beNat_append_singleton]
    push_cast [Int.toNat_of_nonneg hr0]
    rw [ih _ hq]
    have hp : (0 : Int) < 2 ^ (8 * s) := by positivity
    have hsplit : n = 256 * Int.ediv n 256 + Int.emod n 256 := (Int.ediv_add_emod n 256).symm
    set q := Int.ediv n 256 with hqdef
    set r := Int.emod n 256 with hrdef
    have hpow : (2 : Int) ^ (8 * (s + 1)) = 256 * 2 ^ (8 * s) := by
      rw [Nat.mul_succ, pow_add]
      ring
    rw [hpow]
    have hqsplit : q = 2 ^ (8 * s) * (q / 2 ^ (8 * s)) + q % 2 ^ (8 * s) :=
      (Int.ediv_add_emod q (2 ^ (8 * s))).symm
    have hqm0 : 0 ≤ q % 2 ^ (8 * s) := Int.emod_nonneg q (by positivity)
    have hqm1 : q % 2 ^ (8 * s) < 2 ^ (8 * s) := Int.emod_lt_of_pos q hp
    have hmul : 256 * (q % 2 ^ (8 * s) + 1) ≤ 256 * 2 ^ (8 * s) :=
      mul_le_mul_of_nonneg_left (by omega) (by norm_num)
    calc 256 * (q % 2 ^ (8 * s)) + r
        = (256 * (q % 2 ^ (8 * s)) + r) % (256 * 2 ^ (8 * s)) :=
          (Int.emod_eq_of_lt (by omega) (by nlinarith [hmul])).symm
      _ = (256 * (q % 2 ^ (8 * s)) + r + (256 * 2 ^ (8 * s)) * (q / 2 ^ (8 * s))) %
            (256 * 2 ^ (8 * s)) := by
          rw [Int.add_mul_emod_self_left]
      _ = n % (256 * 2 ^ (8 * s)) := by
          congr 1
          linear_combination (-1 : ℤ) * hsplit + (-256 : ℤ) * hqsplit

theorem specMinUnsigned_bound (u : Nat) (h : u < 2 ^ 32) :
    u < 2 ^ (8 * specMinUnsigned u) := by
  unfold specMinUnsigned
  split_ifs <;> omega

theorem beNat_intToBytesBE (n : Int) (h0 : 0 ≤ n) (h32 : n < 2 ^ 32) :
    (beNat (intToBytesBE n) : Int) = n := by
  unfold intToBytesBE
  rw [beNat_intToBytesBEAux _ n h0, getMinBinarySizeOfInt_eq]
  have he : n % (2 ^ 32 : Int) = n := Int.emod_eq_of_lt h0 h32
  rw [he]
  have hu : n.toNat < 2 ^ 32 := by omega
  have hb := specMinUnsigned_bound n.toNat hu
  apply Int.emod_eq_of_lt h0
  have : ((2 : Int) ^ (8 * specMinUnsigned n.toNat)) = ((2 ^ (8 * specMinUnsigned n.toNat) : Nat) : Int) := by
    push_cast
    rfl
  omega

theorem mem_intToBytesBEAux_lt (size : Nat) :
    ∀ (n : Int) (b : Nat), b ∈ intToBytesBEAux n size → b < 256 := by
  induction size with
  | zero => intro n b hb; simp [intToBytesBEAux] at hb
  | succ s ih =>
    intro n b hb
    simp only [intToBytesBEAux, List.mem_append, List.mem_singleton] at hb
    rcases hb with hb | hb
    · exact ih _ b hb
    · have h1 : Int.emod n 256 < 256 := Int.emod_lt_of_pos n (by norm_num)
      omega

theorem mem_intToBytesBE_lt (n : Int) (b : Nat) (hb : b ∈ intToBytesBE n) : b < 256 :=
  mem_intToBytesBEAux_lt _ n b hb

/-! ### An exact model of Go `float64` (IEEE 754 binary64)

The double codec computes `int(v * 1000)` on encode and
`float64(k) / 1000.0` on decode, both in binary64 arithmetic.  A
binary64 value is represented exactly as a dyadic rational `m * 2 ^ e`
(canonical: `m` odd, or `m = 0` with `e = 0`, so value equality is
structural equality), and each operation rounds its exact result to a
53-bit significand, nearest, ties to even.  This is exactly IEEE 754
binary64 on the normal range; every value on this codec's path is 0 or
has magnitude between `2 ^ (-10)` and about `2 ^ 66`, far from
overflow and subnormals (the binade search below is valid down to
`2 ^ (-200)`). -/

/-- A binary64 (`float64`) value as an exact dyadic rational
`m * 2 ^ e` in canonical form. -/
structure F64 where
  m : Int
  e : Int
deriving DecidableEq, Repr

/-- Floor of the base-2 logarithm of `n` (for `n ≥ 1`), by fuel-bounded
halving; fuel 600 covers every magnitude the codec produces. -/
def log2fuel : Nat → Nat → Nat
  | 0, _ => 0
  | fuel + 1, n => if 2 ≤ n then log2fuel fuel (n / 2) + 1 else 0

/-- Round the fraction `a / b` (with `b > 0`) to the nearest integer,
ties to even. -/
def rneHalf (a b : Nat) : Nat :=
  let q := a / b
  let r := a % b
  if 2 * r < b then q
  else if 2 * r > b then q + 1
  else if q % 2 = 0 then q else q + 1

/-- Strip factors of two from a significand to reach the canonical
odd-`m` form (fuel 64 suffices for 53-bit significands). -/
def oddNormAux : Nat → Int → Int → Int × Int
  | 0, m, e => (m, e)
  | fuel + 1, m, e =>
    if m ≠ 0 ∧ m % 2 = 0 then oddNormAux fuel (m / 2) (e + 1) else (m, e)

/-- Round `num / den` (with `den > 0`) to the nearest binary64 value,
ties to even: find the binade `E` with `2 ^ E ≤ |num / den| < 2 ^ (E + 1)`
(valid whenever the magnitude is at least `2 ^ (-200)`), scale the
magnitude into `[2 ^ 52, 2 ^ 53)`, round the significand half-to-even,
and canonicalize. -/
def roundF64 (num : Int) (den : Nat) : F64 :=
  if num = 0 then ⟨0, 0⟩
  else
    let n := num.natAbs
    let E : Int := (log2fuel 600 (n * 2 ^ 200 / den) : Int) - 200
    let ab : Nat × Nat :=
      if 0 ≤ 52 - E then (n * 2 ^ (52 - E).toNat, den)
      else (n, den * 2 ^ (E - 52).toNat)
    let m := rneHalf ab.1 ab.2
    let me := oddNormAux 64 (m : Int) (E - 52)
    if num < 0 then ⟨-me.1, me.2⟩ else ⟨me.1, me.2⟩

/-- Go conversion `float64(n)` of an integer: exact below `2 ^ 53`,
rounded to nearest above. -/
def f64ofInt (n : Int) : F64 := roundF64 n 1

/-- The binary64 literal `1000.0` of the source (`1000 = 125 * 2 ^ 3`
is exactly representable). -/
def f64_1000 : F64 := ⟨125, 3⟩

/-- IEEE binary64 multiplication: round the exact dyadic product. -/
def f64mul (x y : F64) : F64 :=
  let E := x.e + y.e
  if 0 ≤ E then roundF64 (x.m * y.m * 2 ^ E.toNat) 1
  else roundF64 (x.m * y.m) (2 ^ (-E).toNat)

/-- IEEE binary64 division (used by the codec only with the exact
nonzero divisor `1000.0`): round the exact quotient. -/
def f64div (x y : F64) : F64 :=
  let num := if y.m < 0 then -x.m else x.m
  let den := y.m.natAbs
  let E := x.e - y.e
  if 0 ≤ E then roundF64 (num * 2 ^ E.toNat) den
  else roundF64 num (den * 2 ^ (-E).toNat)

/-- Go conversion `int(x)` of a binary64 value: truncation toward
zero. -/
def f64toInt (x : F64) : Int :=
  if 0 ≤ x.e then x.m * 2 ^ x.e.toNat else Int.tdiv x.m (2 ^ (-x.e).toNat)

/-! ### The data model: `Record`, `StructItem`, `Value`

`Record` carries the internal consumed-byte count `size`, the BINRPC
type tag, and the dynamic Go value (`Value any`), modelled as a sum
type: Go `int` as `Int`, Go `string` as its byte list, Go `float64`
as the exact binary64 model `F64`, and `[]StructItem` for structs. -/

mutual
inductive Value : Type where
  | vint (n : Int)
  | vstr (s : List Nat)
  | vdouble (x : F64)
  | vstruct (items : List StructItem)
inductive StructItem : Type where
  | mk (key : List Nat) (value : Record)
inductive Record : Type where
  | mk (size : Nat) (type : Nat) (value : Value)
end

/-- The `size` field of a record (consumed wire bytes). -/
def Record.size : Record → Nat
  | .mk s _ _ => s

/-- The `Type` field of a record (BINRPC type tag). -/
def Record.type : Record → Nat
  | .mk _ t _ => t

/-- The `Value` field of a record. -/
def Record.value : Record → Value
  | .mk _ _ v => v

/-- The `Key` field of a struct item. -/
def StructItem.key : StructItem → List Nat
  | .mk k _ => k

/-- The `Value` field of a struct item. -/
def StructItem.value : StructItem → Record
  | .mk _ v => v

/-- The Go type assertion `record.Value.(string)` used on struct keys.
Records decoded with tag `TypeAVP` always hold a string, so the default
branch (a Go panic) is unreachable where this is used. -/
def Record.stringValue (r : Record) : List Nat :=
  match r.value with
  | .vstr k => k
  | _ => []

/-!  ### ReadRecord

`ReadRecord` is recursive through the `TypeStruct` case (the key/value
loop calls `ReadRecord` again).  Every recursive call consumes input,
so the recursion is embedded with a fuel parameter large enough that it
can never run out (the wrapper `ReadRecord` passes `2 * length + 1`);
`Err.fuel` marks the artificial out-of-fuel branch.  The functions
always return the stream as it stands after the call, because the
source reads from a mutable `io.Reader`: in particular the
`errEndOfStruct` outcome leaves the stream advanced past the sentinel
byte, and the enclosing loop continues from there. -/

/-- Lines 350-398 of `ReadRecord` (v3): read the record header byte
(bit 7 the extended flag, bits 6-4 the inline size, bits 3-0 the type
tag), detect the end-of-struct sentinel (flag set, inline size 0, tag
`TypeStruct`), read and accumulate the extended size field when the
flag is set, then read the `size` payload bytes (no read is performed
when `size` is 0).  Returns the running `record.size`
(`1 + inline size`, plus the accumulated size when the flag is set),
the type tag, the payload size and the payload bytes. -/
def readRecordHead (s : List Nat) : Except Err (Nat × Nat × Nat × List Nat) × List Nat :=
  match s with
  | [] => (.error .recordHeaderShort, s)
  | h :: s0 =>
    let flag := h >>> 7
    let size0 := h >>> 4 &&& 0x7
    let typ := h &&& 0x0F
    if flag = 1 ∧ size0 = 0 ∧ typ = TypeStruct then
      (.error .endOfStruct, s0)
    else
      match (if flag = 1 then readN size0 s0 else (some [], s0)) with
      | (none, s1) => (.error .recordSizeShort, s1)
      | (some sbuf, s1) =>
        let size := if flag = 1 then beNat sbuf else size0
        let rsize := if flag = 1 then 1 + size0 + size else 1 + size0
        match (if size = 0 then (some [], s1) else readN size s1) with
        | (none, s2) => (.error .recordValueShort, s2)
        | (some payload, s2) => (.ok (rsize, typ, size, payload), s2)

mutual
/-- One call of `ReadRecord` (v3, lines 349-469): parse header and
payload through `readRecordHead`, then interpret the payload according
to the type tag (the switch of lines 400-466).  The struct case
delegates the key/value loop to `readItemsF`. -/
def readRecordF : Nat → List Nat → Except Err Record × List Nat
  | 0, s => (.error .fuel, s)
  | fuel + 1, s =>
    match readRecordHead s with
    | (.error e, s1) => (.error e, s1)
    | (.ok (rsize, typ, size, payload), s2) =>
      if typ = TypeAVP ∨ typ = TypeString then
        (.ok ⟨rsize, typ, .vstr (if size = 0 then [] else payload.dropLast)⟩, s2)
      else if typ = TypeInt then
        (.ok ⟨rsize, typ, .vint (accumInt payload)⟩, s2)
      else if typ = TypeDouble then
        (.ok ⟨rsize, typ, .vdouble (f64div (f64ofInt (accumInt payload)) f64_1000)⟩, s2)
      else if typ = TypeStruct then
        match readItemsF fuel s2 with
        | (.error e, s3) => (.error e, s3)
        | (.ok (items, consumed), s3) =>
          (.ok ⟨rsize + consumed, typ, .vstruct items⟩, s3)
      else
        (.error (.typeNotImpl typ), s2)

/-- The key/value loop of the `TypeStruct` case: read a key record
(`errEndOfStruct` terminates the loop and accounts one byte for the
sentinel), require its tag to be `TypeAVP`, read the value record,
append the pair, and accumulate both records' consumed sizes. -/
def readItemsF : Nat → List Nat → Except Err (List StructItem × Nat) × List Nat
  | 0, s => (.error .fuel, s)
  | fuel + 1, s =>
    match readRecordF fuel s with
    | (.error .endOfStruct, s1) => (.ok ([], 1), s1)
    | (.error e, s1) => (.error e, s1)
    | (.ok avpName, s1) =>
      if avpName.type ≠ TypeAVP then (.error (.structNotAvp avpName.type), s1)
      else
        match readRecordF fuel s1 with
        | (.error e, s2) => (.error e, s2)
        | (.ok avpValue, s2) =>
          match readItemsF fuel s2 with
          | (.error e, s3) => (.error e, s3)
          | (.ok (items, consumed), s3) =>
            (.ok (⟨avpName.stringValue, avpValue⟩ :: items,
              avpName.size + avpValue.size + consumed), s3)
end

/-- `ReadRecord`: the fuel argument `2 * s.length + 1` always suffices,
since every nested call consumes at least one byte of input and at
most two calls sit between consecutive consumed bytes. -/
def ReadRecord (s : List Nat) : Except Err Record × List Nat :=
  readRecordF (2 * s.length + 1) s

/-- `Header`: parsed payload length and correlation cookie. -/
structure Header where
  payloadLength : Nat
  cookie : Nat
deriving DecidableEq, Repr

/-- The cookie accumulation `header.Cookie = header.Cookie<<8 | uint32(b)`
over a `uint32`. -/
def cookieFold (l : List Nat) : Nat :=
  l.foldl (fun c b => (c <<< 8) % 2 ^ 32 ||| b) 0

/-- `ReadHeader` (v3, lines 299-346): read 2 bytes (fewer is an error),
check the magic nibble and version nibble, extract the two width
selectors from the second byte, then read and big-endian-accumulate the
payload length and the cookie. -/
def ReadHeader (s : List Nat) : Except Err Header × List Nat :=
  match s with
  | b0 :: b1 :: s0 =>
    if b0 >>> 4 ≠ BinRPCMagic then (.error .magicMismatch, s0)
    else if b0 &&& 0x0F ≠ BinRPCVersion then (.error .versionMismatch, s0)
    else
      let sizeOfLength := (b1 &&& 0x0C) >>> 2 + 1
      let sizeOfCookie := (b1 &&& 0x3) + 1
      match readN sizeOfLength s0 with
      | (none, s1) => (.error .lengthShort, s1)
      | (some lbuf, s1) =>
        match readN sizeOfCookie s1 with
        | (none, s2) => (.error .cookieShort, s2)
        | (some cbuf, s2) => (.ok ⟨beNat lbuf, cookieFold cbuf⟩, s2)
  | _ => (.error .headerShort, s.drop 2)

/-- The record loop of `ReadPacket`: while `read < payloadLength`,
decode one record from the payload buffer, append it, and add its
consumed size to `read`.  Fuel `payloadLength + 1` suffices because
every successful record consumes at least one byte. -/
def readRecordsLoop : Nat → Nat → Nat → List Nat → List Record →
    Except Err (List Record) × List Nat
  | 0, _, _, payload, _ => (.error .fuel, payload)
  | fuel + 1, read, total, payload, records =>
    if read < total then
      match ReadRecord payload with
      | (.error e, p1) => (.error e, p1)
      | (.ok record, p1) =>
        readRecordsLoop fuel (read + record.size) total p1 (records ++ [record])
    else (.ok records, payload)

/-- `ReadPacket` (v3, lines 473-507): decode the header; compare the
cookie when `expectedCookie` is non-zero (a mismatch returns before the
payload is touched); read exactly `payloadLength` bytes with
`io.ReadFull`; then decode records from that buffer until the consumed
sizes reach `payloadLength`.  The second component is the state of the
input stream after the call. -/
def ReadPacket (s : List Nat) (expectedCookie : Nat) :
    Except Err (List Record) × List Nat :=
  match ReadHeader s with
  | (.error e, s1) => (.error e, s1)
  | (.ok header, s1) =>
    if expectedCookie ≠ 0 ∧ expectedCookie ≠ header.cookie then
      (.error .cookieMismatch, s1)
    else
      match readFull header.payloadLength s1 with
      | (none, s2) => (.error .payloadShort, s2)
      | (some payloadBytes, s2) =>
        ((readRecordsLoop (header.payloadLength + 1) 0 header.payloadLength
          payloadBytes []).1, s2)

/-!  ### Encoding -/

/-- The common tail of `Record.Encode` (v3, lines 252-269): wrap a
payload with its record header, inline when the length fits in 3 bits
and extended (`1<<7 | len(sizeBytes)<<4 | type`) otherwise. -/
def wireWrap (t : Nat) (value : List Nat) : List Nat :=
  if value.length < 8 then
    (value.length <<< 4 ||| t) :: value
  else
    let sizeBytes := intToBytesBE (value.length : Int)
    (2 ^ 7 ||| sizeBytes.length <<< 4 ||| t) :: (sizeBytes ++ value)

/-- `Record.Encode` (v3, lines 212-276): build the payload according to
the type tag — minimal big-endian bytes for an integer (a zero integer
short-circuits to the single byte `0x00`), the raw bytes plus a NUL
terminator for a string, `int(v * 1000)` encoded like an integer for a
double — then wrap it with the record header.  Tags other than int,
string and double are not implemented. -/
def Record.Encode (r : Record) : Except Err (List Nat) :=
  if r.type = TypeInt then
    match r.value with
    | .vint v =>
      if v = 0 then .ok [0x00]
      else .ok (wireWrap r.type (intToBytesBE v))
    | _ => .error .encodeType
  else if r.type = TypeString then
    match r.value with
    | .vstr str => .ok (wireWrap r.type (str ++ [0x00]))
    | _ => .error .encodeType
  else if r.type = TypeDouble then
    match r.value with
    | .vdouble x => .ok (wireWrap r.type (intToBytesBE (f64toInt (f64mul x f64_1000))))
    | _ => .error .encodeType
  else .error (.typeNotImpl r.type)

/-- `CreateRecord` (v3, lines 279-296): fill the type tag from the Go
type of the value.  The generic constraint `ValidTypes` admits only
`int`, `string` and `float64`, so a struct value is not encodable. -/
def CreateRecord (v : Value) : Except Err Record :=
  match v with
  | .vstr _ => .ok ⟨0, TypeString, v⟩
  | .vint _ => .ok ⟨0, TypeInt, v⟩
  | .vdouble _ => .ok ⟨0, TypeDouble, v⟩
  | .vstruct _ => .error .typeConvert

/-- The encoding loop of `WritePacket`: `CreateRecord` then
`record.Encode(&payload)` for each value, concatenating into the
payload buffer. -/
def encodeValues : List Value → Except Err (List Nat)
  | [] => .ok []
  | v :: rest =>
    match CreateRecord v with
    | .error e => .error e
    | .ok record =>
      match record.Encode with
      | .error e => .error e
      | .ok bytes =>
        match encodeValues rest with
        | .error e => .error e
        | .ok tail => .ok (bytes ++ tail)

/-- `WritePacket` (v3, lines 511-557).  The random cookie
`rand.Uint32()` is passed as the `cookie` parameter (an injected
capability).  Returns the full byte sequence written to the sink; no
partial write is modelled because the source buffers everything and
flushes once.  The width-selector byte is computed by Go `int`
arithmetic `byte((len(lengthBE)-1)<<2 | len(cookieBytes)-1)`: when the
cookie is zero `cookieBytes` is empty and the expression is
`x | -1 = -1`, whose byte truncation is `0xFF`. -/
def WritePacket (cookie : Nat) (values : List Value) : Except Err (List Nat) :=
  if values.length = 0 then .error .missingValues
  else
    match encodeValues values with
    | .error e => .error e
    | .ok payload =>
      let cookieBytes := intToBytesBE (cookie : Int)
      let lengthBE := intToBytesBE (payload.length : Int)
      if lengthBE.length > MaxSizeOfLength then .error .lengthTooBig
      else
        let selector := if cookieBytes.length = 0 then 0xFF
          else (lengthBE.length - 1) <<< 2 ||| (cookieBytes.length - 1)
        .ok ((BinRPCMagic <<< 4 ||| BinRPCVersion) :: selector ::
          (lengthBE ++ cookieBytes) ++ payload)

/-!  ### Consumption accounting

A successful `ReadRecord` always accounts at most the bytes it consumed
in `record.size` (exactly, except on malformed inputs where a nested
parse propagates `errEndOfStruct`, in which case the source, too,
counts a single sentinel byte while the reader has moved further).
These bounds drive the packet length invariant. -/

theorem readN_ok (n : Nat) (s : List Nat) (buf : List Nat) (s1 : List Nat)
    (h : readN n s = (some buf, s1)) :
    buf = s.take n ∧ s1 = s.drop n ∧ n ≤ s.length ∧ 0 < s.length := by
  unfold readN at h
  split at h
  · obtain ⟨h1, h2⟩ := Prod.mk.injEq _ _ _ _ ▸ h
    exact ⟨by simpa using h1.symm, h2.symm, by omega, by omega⟩
  · simp at h

theorem readN_snd_le (n : Nat) (s : List Nat) : (readN n s).2.length ≤ s.length := by
  unfold readN
  split <;> simp

theorem readRecordHead_ok (s : List Nat) (rsize typ size : Nat) (payload s2 : List Nat)
    (h : readRecordHead s = (.ok (rsize, typ, size, payload), s2)) :
    rsize + s2.length = s.length ∧ payload.length = size ∧ 1 ≤ rsize := by
  unfold readRecordHead at h
  split at h
  · simp at h
  · rename_i hb s0
    dsimp only at h
    split at h
    · simp at h
    · split at h
      · simp at h
      · rename_i sbuf s1x heq
        have hs1x : (hb >>> 7 = 1 → (hb >>> 4 &&& 0x7) + s1x.length = s0.length) ∧
            (¬(hb >>> 7 = 1) → s1x = s0) := by
          by_cases hflag : hb >>> 7 = 1
          · rw [if_pos hflag] at heq
            obtain ⟨hbuf, hdrop, hle, _⟩ := readN_ok _ _ _ _ heq
            subst hdrop
            refine ⟨fun _ => ?_, fun hh => absurd hflag hh⟩
            simp only [List.length_drop]
            omega
          · rw [if_neg hflag] at heq
            rw [Prod.mk.injEq] at heq
            exact ⟨fun hh => absurd hh hflag, fun _ => heq.2.symm⟩
        split at h
        · simp at h
        · rename_i payload2 s2x heq2
          have hs2x : ((if hb >>> 7 = 1 then beNat sbuf else hb >>> 4 &&& 0x7) = 0 →
                s2x = s1x ∧ payload2 = []) ∧
              ((if hb >>> 7 = 1 then beNat sbuf else hb >>> 4 &&& 0x7) ≠ 0 →
                (if hb >>> 7 = 1 then beNat sbuf else hb >>> 4 &&& 0x7) + s2x.length =
                  s1x.length ∧
                payload2.length =
                  (if hb >>> 7 = 1 then beNat sbuf else hb >>> 4 &&& 0x7)) := by
            by_cases hz : (if hb >>> 7 = 1 then beNat sbuf else hb >>> 4 &&& 0x7) = 0
            · rw [if_pos hz] at heq2
              rw [Prod.mk.injEq, Option.some.injEq] at heq2
              exact ⟨fun _ => ⟨heq2.2.symm, heq2.1.symm⟩, fun hh => absurd hz hh⟩
            · rw [if_neg hz] at heq2
              obtain ⟨hbuf, hdrop, hle, _⟩ := readN_ok _ _ _ _ heq2
              subst hdrop
              subst hbuf
              refine ⟨fun hh => absurd hh hz, fun _ => ⟨?_, ?_⟩⟩
              · simp only [List.length_drop]
                omega
              · simp only [List.length_take]
                omega
          rw [Prod.mk.injEq, Except.ok.injEq, Prod.mk.injEq, Prod.mk.injEq,
            Prod.mk.injEq] at h
          obtain ⟨⟨hr, ht, hz, hp⟩, hs⟩ := h
          subst hr
          subst hz
          subst hp
          subst hs
          by_cases hzz : (if hb >>> 7 = 1 then beNat sbuf else hb >>> 4 &&& 0x7) = 0
          · obtain ⟨he1, he2⟩ := hs2x.1 hzz
            subst he1
            subst he2
            rcases hs1x with ⟨ha, hc⟩
            by_cases hflag : hb >>> 7 = 1
            · have := ha hflag
              simp only [hflag, if_pos, List.length_cons]
              simp only [hflag, if_pos] at hzz
              refine ⟨by omega, by simp [hzz], by omega⟩
            · have := hc hflag
              subst this
              simp only [hflag, if_neg, ite_false, List.length_cons]
              simp only [hflag, ite_false] at hzz
              refine ⟨by omega, by simp [hzz], by omega⟩
          · obtain ⟨he1, he2⟩ := hs2x.2 hzz
            rcases hs1x with ⟨ha, hc⟩
            by_cases hflag : hb >>> 7 = 1
            · have := ha hflag
              simp only [hflag, if_pos, List.length_cons] at he1 he2 ⊢
              refine ⟨by omega, he2, by omega⟩
            · have := hc hflag
              subst this
              simp only [hflag, ite_false, List.length_cons] at he1 he2 ⊢
              refine ⟨by omega, he2, by omega⟩

theorem readRecordHead_snd_le (s : List Nat) :
    (readRecordHead s).2.length ≤ s.length := by
  unfold readRecordHead
  split
  · exact le_refl _
  · rename_i hb s0
    dsimp only
    split

    · simp
    · have h1 : ∀ r : Option (List Nat) × List Nat,
          (if hb >>> 7 = 1 then readN (hb >>> 4 &&& 0x7) s0 else (some [], s0)) = r →
          r.2.length ≤ s0.length := by
        intro r hr
        by_cases hflag : hb >>> 7 = 1
        · rw [if_pos hflag] at hr
          rw [← hr]
          exact readN_snd_le _ _
        · rw [if_neg hflag] at hr
          rw [← hr]
      split
      · rename_i s1 heq
        have hle := h1 _ heq
        dsimp only at hle
        simp only [List.length_cons]
        omega
      · rename_i sbuf s1 heq
        have hle1 := h1 _ heq
        dsimp only at hle1
        have h2 : ∀ r : Option (List Nat) × List Nat,
            (if (if hb >>> 7 = 1 then beNat sbuf else hb >>> 4 &&& 0x7) = 0
              then (some [], s1)
              else readN (if hb >>> 7 = 1 then beNat sbuf else hb >>> 4 &&& 0x7) s1) = r →
            r.2.length ≤ s1.length := by
          intro r hr
          by_cases hz : (if hb >>> 7 = 1 then beNat sbuf else hb >>> 4 &&& 0x7) = 0
          · rw [if_pos hz] at hr
            rw [← hr]
          · rw [if_neg hz] at hr
            rw [← hr]
            exact readN_snd_le _ _
        split
        · rename_i s2 heq2
          have hle2 := h2 _ heq2
          dsimp only at hle2
          simp only [List.length_cons]
          omega
        · rename_i payload s2 heq2
          have hle2 := h2 _ heq2
          dsimp only at hle2
          simp only [List.length_cons]
          omega

theorem readRecordHead_endOfStruct (s s1 : List Nat)
    (h : readRecordHead s = (.error .endOfStruct, s1)) :
    1 + s1.length = s.length := by
  unfold readRecordHead at h
  split at h
  · simp at h
  · rename_i hb s0
    dsimp only at h
    split at h
    · rw [Prod.mk.injEq] at h
      rw [← h.2]
      simp only [List.length_cons]
      omega
    · split at h
      · simp at h
      · split at h
        · simp at h
        · simp at h

/-- Byte-accounting of one `ReadRecord` call and of the struct item
loop: a successful parse accounts at most the consumed bytes in
`record.size` (the stream only shrinks), and an `errEndOfStruct`
outcome consumed at least the sentinel byte. -/
theorem consume (fuel : Nat) :
    (∀ s res s1, readRecordF fuel s = (res, s1) →
      s1.length ≤ s.length ∧
      (∀ r, res = Except.ok r → r.size + s1.length ≤ s.length) ∧
      (res = Except.error Err.endOfStruct → 1 + s1.length ≤ s.length)) ∧
    (∀ s res s1, readItemsF fuel s = (res, s1) →
      s1.length ≤ s.length ∧
      (∀ items consumed, res = Except.ok (items, consumed) →
        consumed + s1.length ≤ s.length) ∧
      (res = Except.error Err.endOfStruct → 1 + s1.length ≤ s.length)) := by
  induction fuel with
  | zero =>
    constructor
    · intro s res s1 h
      simp only [readRecordF] at h
      cases h
      refine ⟨le_refl _, ?_, ?_⟩ <;> intro h1 <;> simp_all
    · intro s res s1 h
      simp only [readItemsF] at h
      cases h
      refine ⟨le_refl _, fun i c h1 => by simp_all, fun h1 => by simp_all⟩
  | succ n ih =>
    constructor
    · intro s res s1 h
      simp only [readRecordF] at h
      split at h
      · rename_i e s1x heq
        cases h
        have hle := readRecordHead_snd_le s
        rw [heq] at hle
        refine ⟨hle, fun r h1 => by simp_all, fun h1 => ?_⟩
        rw [Except.error.injEq] at h1
        subst h1
        have := readRecordHead_endOfStruct s s1 heq
        omega
      · rename_i rsize typ size payload s2x heq
        obtain ⟨hacc, hplen, hpos⟩ := readRecordHead_ok _ _ _ _ _ _ heq
        split at h
        · cases h
          refine ⟨by omega, ?_, by intro h1; simp_all⟩
          intro r h1
          rw [Except.ok.injEq] at h1
          subst h1
          simp only [Record.size]
          omega
        · split at h
          · cases h
            refine ⟨by omega, ?_, by intro h1; simp_all⟩
            intro r h1
            rw [Except.ok.injEq] at h1
            subst h1
            simp only [Record.size]
            omega
          · split at h
            · cases h
              refine ⟨by omega, ?_, by intro h1; simp_all⟩
              intro r h1
              rw [Except.ok.injEq] at h1
              subst h1
              simp only [Record.size]
              omega
            · split at h
              · split at h
                · rename_i e s3x heq2
                  cases h
                  obtain ⟨hle2, _, hend⟩ := ih.2 s2x _ _ heq2
                  refine ⟨by omega, fun r h1 => by simp_all, fun h1 => ?_⟩
                  rw [Except.error.injEq] at h1
                  subst h1
                  have := hend rfl
                  omega
                · rename_i items consumed s3x heq2
                  cases h
                  obtain ⟨hle2, hokc, _⟩ := ih.2 s2x _ _ heq2
                  have hcons := hokc items consumed rfl
                  refine ⟨by omega, ?_, by intro h1; simp_all⟩
                  intro r h1
                  rw [Except.ok.injEq] at h1
                  subst h1
                  simp only [Record.size]
                  omega
              · cases h
                refine ⟨by omega, fun r h1 => by simp_all, by intro h1; simp_all⟩
    · intro s res s1 h
      simp only [readItemsF] at h
      split at h
      · rename_i s1x heq
        cases h
        obtain ⟨hle, _, hend⟩ := ih.1 s _ _ heq
        have := hend rfl
        refine ⟨by omega, ?_, by intro h1; simp_all⟩
        intro items consumed h1
        rw [Except.ok.injEq, Prod.mk.injEq] at h1
        obtain ⟨h2, h3⟩ := h1
        omega
      · rename_i e s1x hne heq
        cases h
        obtain ⟨hle, _, hend⟩ := ih.1 s _ _ heq
        refine ⟨hle, fun i c h1 => by simp_all, fun h1 => ?_⟩
        rw [Except.error.injEq] at h1
        subst h1
        exact hend rfl
      · rename_i avpName s1x heq
        obtain ⟨hle1, hok1, _⟩ := ih.1 s _ _ heq
        have hsz1 := hok1 avpName rfl
        split at h
        · cases h
          refine ⟨hle1, fun i c h1 => by simp_all, by intro h1; simp_all⟩
        · split at h
          · rename_i e s2x heq2
            cases h
            obtain ⟨hle2, _, hend2⟩ := ih.1 s1x _ _ heq2
            refine ⟨by omega, fun i c h1 => by simp_all, fun h1 => ?_⟩
            rw [Except.error.injEq] at h1
            subst h1
            have := hend2 rfl
            omega
          · rename_i avpValue s2x heq2
            obtain ⟨hle2, hok2, _⟩ := ih.1 s1x _ _ heq2
            have hsz2 := hok2 avpValue rfl
            split at h
            · rename_i e s3x heq3
              cases h
              obtain ⟨hle3, _, hend3⟩ := ih.2 s2x _ _ heq3
              refine ⟨by omega, fun i c h1 => by simp_all, fun h1 => ?_⟩
              rw [Except.error.injEq] at h1
              subst h1
              have := hend3 rfl
              omega
            · rename_i items consumed s3x heq3
              cases h
              obtain ⟨hle3, hok3, _⟩ := ih.2 s2x _ _ heq3
              have hsz3 := hok3 items consumed rfl
              refine ⟨by omega, ?_, by intro h1; simp_all⟩
              intro i c h1
              rw [Except.ok.injEq, Prod.mk.injEq] at h1
              obtain ⟨h2, h3⟩ := h1
              subst h3
              omega

theorem ReadRecord_ok_size (s : List Nat) (r : Record) (s1 : List Nat)
    (h : ReadRecord s = (.ok r, s1)) : r.size + s1.length ≤ s.length :=
  ((consume _).1 s _ _ h).2.1 r rfl

theorem readFull_ok (n : Nat) (s buf s1 : List Nat) (h : readFull n s = (some buf, s1)) :
    buf = s.take n ∧ s1 = s.drop n ∧ n ≤ s.length := by
  unfold readFull at h
  split at h
  · rw [Prod.mk.injEq, Option.some.injEq] at h
    exact ⟨h.1.symm, h.2.symm, by omega⟩
  · simp at h

set_option maxRecDepth 4000

theorem or_nibbles : ∀ a, a < 16 → ∀ b, b < 16 → (a <<< 4 ||| b) = 16 * a + b := by
  decide

theorem or_ext_header : ∀ m, m < 8 → ∀ t, t < 16 →
    (2 ^ 7 ||| m <<< 4 ||| t) = 128 + 16 * m + t := by
  decide

theorem byte_shr7 : ∀ x, x < 256 → x >>> 7 = x / 128 := by
  decide

theorem byte_nibble : ∀ x, x < 256 → x >>> 4 &&& 7 = x / 16 % 8 := by
  decide

theorem byte_low4 : ∀ x, x < 256 → x &&& 15 = x % 16 := by
  decide

theorem readN_exact (n : Nat) (buf rest : List Nat) (h : buf.length = n) (hn : 1 ≤ n) :
    readN n (buf ++ rest) = (some buf, rest) := by
  unfold readN
  rw [if_pos (by simp [List.length_append]; omega)]
  rw [← h, List.take_left, List.drop_left]

/-- Decoding the wire form produced by `wireWrap`: the record header
is parsed back into exactly the tag and payload that were wrapped,
with `record.size` equal to the number of wire bytes. -/
theorem readRecordHead_wireWrap (t : Nat) (ht : t < 16) (payload rest : List Nat)
    (hlen : payload.length < 2 ^ 32) :
    readRecordHead (wireWrap t payload ++ rest) =
      (.ok ((wireWrap t payload).length, t, payload.length, payload), rest) := by
  unfold wireWrap
  split
  · rename_i hsmall
    set hb := payload.length <<< 4 ||| t with hhb
    have hbval : hb = 16 * payload.length + t := or_nibbles _ (by omega) _ ht
    have hblt : hb < 256 := by omega
    have hflag : hb >>> 7 = 0 := by
      rw [byte_shr7 _ hblt]
      omega
    have hsz : hb >>> 4 &&& 7 = payload.length := by
      rw [byte_nibble _ hblt]
      omega
    have htyp : hb &&& 15 = t := by
      rw [byte_low4 _ hblt]
      omega
    simp only [List.cons_append]
    simp only [readRecordHead, hflag, hsz, htyp, List.length_cons]
    rw [if_neg (by simp)]
    rw [if_neg (by norm_num)]
    dsimp only
    norm_num
    by_cases hz : payload.length = 0
    · have : payload = [] := List.eq_nil_of_length_eq_zero hz
      subst this
      simp
    · rw [if_neg (fun hc => hz (by simp [hc])), readN_exact _ payload rest rfl (by omega)]
      dsimp only
      simp [Nat.add_comm]
  · rename_i hbig
    push_neg at hbig
    set sb := intToBytesBE (payload.length : Int) with hsb
    have hm1 : 1 ≤ sb.length := by
      rw [hsb, intToBytesBE_length, getMinBinarySizeOfInt_eq]
      have h8 : ((payload.length : Int) % 2 ^ 32).toNat = payload.length := by
        rw [Int.emod_eq_of_lt (by omega) (by omega)]
        omega
      rw [h8]
      unfold specMinUnsigned
      split_ifs <;> omega
    have hm4 : sb.length ≤ 4 := intToBytesBE_length_le _
    set hb := 2 ^ 7 ||| sb.length <<< 4 ||| t with hhb
    have hbval : hb = 128 + 16 * sb.length + t := or_ext_header _ (by omega) _ ht
    have hblt : hb < 256 := by omega
    have hflag : hb >>> 7 = 1 := by
      rw [byte_shr7 _ hblt]
      omega
    have hsz : hb >>> 4 &&& 7 = sb.length := by
      rw [byte_nibble _ hblt]
      omega
    have htyp : hb &&& 15 = t := by
      rw [byte_low4 _ hblt]
      omega
    have hbe : beNat sb = payload.length := by
      have := beNat_intToBytesBE (payload.length : Int) (by omega) (by omega)
      rw [← hsb] at this
      omega
    simp only [List.cons_append, List.append_assoc]
    simp only [readRecordHead, hflag, hsz, htyp, List.length_cons]
    rw [if_neg (by
      intro hcon
      have := hcon.2.1
      omega)]
    simp only [if_true, ite_true]
    rw [readN_exact _ sb (payload ++ rest) rfl (by omega)]
    dsimp only
    simp only [if_true, ite_true, hbe]
    rw [if_neg (by omega), readN_exact _ payload rest rfl (by omega)]
    dsimp only
    simp only [List.length_append, List.length_cons, Prod.mk.injEq, Except.ok.injEq,
      and_true, true_and, eq_self_iff_true]
    omega

theorem accumInt_intToBytesBE (n : Int) (h0 : 0 ≤ n) (h32 : n < 2 ^ 32) :
    accumInt (intToBytesBE n) = n := by
  have hlt : beNat (intToBytesBE n) < 2 ^ 63 := by
    have h1 : beNat (intToBytesBE n) < 256 ^ (intToBytesBE n).length :=
      beNat_lt _ (fun b hb => mem_intToBytesBE_lt n b hb)
    have h2 : (256 : Nat) ^ (intToBytesBE n).length ≤ 256 ^ 4 :=
      Nat.pow_le_pow_right (by norm_num) (intToBytesBE_length_le n)
    calc beNat (intToBytesBE n) < 256 ^ (intToBytesBE n).length := h1
      _ ≤ 256 ^ 4 := h2
      _ < 2 ^ 63 := by norm_num
  rw [accumInt_eq_of_lt _ hlt, beNat_intToBytesBE n h0 h32]

theorem readRecordF_wire_int (fuel : Nat) (payload rest : List Nat)
    (hlen : payload.length < 2 ^ 32) :
    readRecordF (fuel + 1) (wireWrap TypeInt payload ++ rest) =
      (.ok ⟨(wireWrap TypeInt payload).length, TypeInt, .vint (accumInt payload)⟩, rest) := by
  simp only [readRecordF]
  rw [readRecordHead_wireWrap TypeInt (by norm_num [TypeInt]) payload rest hlen]
  norm_num [TypeInt, TypeAVP, TypeString]

theorem readRecordF_wire_double (fuel : Nat) (payload rest : List Nat)
    (hlen : payload.length < 2 ^ 32) :
    readRecordF (fuel + 1) (wireWrap TypeDouble payload ++ rest) =
      (.ok ⟨(wireWrap TypeDouble payload).length, TypeDouble,
        .vdouble (f64div (f64ofInt (accumInt payload)) f64_1000)⟩, rest) := by
  simp only [readRecordF]
  rw [readRecordHead_wireWrap TypeDouble (by norm_num [TypeDouble]) payload rest hlen]
  norm_num [TypeInt, TypeAVP, TypeString, TypeDouble]

theorem readRecordF_wire_string (fuel : Nat) (str rest : List Nat)
    (hlen : str.length + 1 < 2 ^ 32) :
    readRecordF (fuel + 1) (wireWrap TypeString (str ++ [0x00]) ++ rest) =
      (.ok ⟨(wireWrap TypeString (str ++ [0x00])).length, TypeString, .vstr str⟩, rest) := by
  simp only [readRecordF]
  rw [readRecordHead_wireWrap TypeString (by norm_num [TypeString]) (str ++ [0x00]) rest
    (by simp only [List.length_append, List.length_cons, List.length_nil]; omega)]
  norm_num [TypeInt, TypeAVP, TypeString]

theorem readRecordF_wire_avp (fuel : Nat) (str rest : List Nat)
    (hlen : str.length + 1 < 2 ^ 32) :
    readRecordF (fuel + 1) (wireWrap TypeAVP (str ++ [0x00]) ++ rest) =
      (.ok ⟨(wireWrap TypeAVP (str ++ [0x00])).length, TypeAVP, .vstr str⟩, rest) := by
  simp only [readRecordF]
  rw [readRecordHead_wireWrap TypeAVP (by norm_num [TypeAVP]) (str ++ [0x00]) rest
    (by simp only [List.length_append, List.length_cons, List.length_nil]; omega)]
  norm_num [TypeInt, TypeAVP, TypeString]

theorem encode_int (sz : Nat) (n : Int) :
    Record.Encode ⟨sz, TypeInt, .vint n⟩ =
      .ok (if n = 0 then [0x00] else wireWrap TypeInt (intToBytesBE n)) := by
  simp only [Record.Encode, Record.type, Record.value]
  norm_num [TypeInt]
  split_ifs <;> rfl

theorem encode_string (sz : Nat) (str : List Nat) :
    Record.Encode ⟨sz, TypeString, .vstr str⟩ =
      .ok (wireWrap TypeString (str ++ [0x00])) := by
  simp only [Record.Encode, Record.type, Record.value]
  norm_num [TypeInt, TypeString]

theorem encode_double (sz : Nat) (x : F64) :
    Record.Encode ⟨sz, TypeDouble, .vdouble x⟩ =
      .ok (wireWrap TypeDouble (intToBytesBE (f64toInt (f64mul x f64_1000)))) := by
  simp only [Record.Encode, Record.type, Record.value]
  norm_num [TypeInt, TypeString, TypeDouble]

/-!  ### Wire forms used to state the struct-decoding properties

These byte-level constructions follow the record grammar (and coincide
with what `Record.Encode` emits for the tags it supports); they are
used to quantify over well-formed struct wires. -/

/-- The wire form of an integer record, exactly as `Record.Encode`
produces it (`0x00` for a zero integer). -/
def intWire (n : Int) : List Nat :=
  if n = 0 then [0x00] else wireWrap TypeInt (intToBytesBE n)

/-- The wire form of an attribute-name (struct key) record: a string
payload with its NUL terminator under tag `TypeAVP`. -/
def avpWire (key : List Nat) : List Nat :=
  wireWrap TypeAVP (key ++ [0x00])

/-- Concatenated key/value wire forms of a list of struct entries with
integer values. -/
def pairsWire : List (List Nat × Int) → List Nat
  | [] => []
  | p :: tl => avpWire p.1 ++ (intWire p.2 ++ pairsWire tl)

/-- A complete struct record wire: the header byte `0x03` (inline size
0, tag `TypeStruct`), the entries, and the sentinel byte `0x83`. -/
def structWire (pairs : List (List Nat × Int)) : List Nat :=
  0x03 :: (pairsWire pairs ++ [0x83])

/-- The record an integer wire decodes to. -/
def intRecord (n : Int) : Record :=
  ⟨(intWire n).length, TypeInt, .vint n⟩

/-- The record a key wire decodes to. -/
def avpRecord (key : List Nat) : Record :=
  ⟨(avpWire key).length, TypeAVP, .vstr key⟩

/-- The struct items a list of entries decodes to: same keys, same
values, same order, duplicates retained. -/
def pairItems (pairs : List (List Nat × Int)) : List StructItem :=
  pairs.map (fun p => ⟨p.1, intRecord p.2⟩)

theorem intWire_eq (n : Int) : intWire n = wireWrap TypeInt (intToBytesBE n) := by
  unfold intWire
  by_cases h : n = 0
  · subst h
    rfl
  · rw [if_neg h]

theorem encode_int_intWire (sz : Nat) (n : Int) :
    Record.Encode ⟨sz, TypeInt, .vint n⟩ = .ok (intWire n) := by
  rw [encode_int]
  rfl

theorem readRecordF_intWire (fuel : Nat) (n : Int) (rest : List Nat)
    (h0 : 0 ≤ n) (h32 : n < 2 ^ 32) :
    readRecordF (fuel + 1) (intWire n ++ rest) = (.ok (intRecord n), rest) := by
  rw [intWire_eq]
  rw [readRecordF_wire_int fuel (intToBytesBE n) rest
    (by have := intToBytesBE_length_le n; omega)]
  rw [accumInt_intToBytesBE n h0 h32]
  rw [intRecord, intWire_eq]

theorem readRecordF_avpWire (fuel : Nat) (key rest : List Nat)
    (hk : key.length + 1 < 2 ^ 32) :
    readRecordF (fuel + 1) (avpWire key ++ rest) = (.ok (avpRecord key), rest) := by
  rw [avpWire, readRecordF_wire_avp fuel key rest hk, avpRecord, avpWire]

theorem readRecordHead_sentinel (s : List Nat) :
    readRecordHead (0x83 :: s) = (.error .endOfStruct, s) := rfl

theorem readRecordF_sentinel (fuel : Nat) (s : List Nat) :
    readRecordF (fuel + 1) (0x83 :: s) = (.error .endOfStruct, s) := by
  simp only [readRecordF, readRecordHead_sentinel]

theorem readItemsF_sentinel (fuel : Nat) (s : List Nat) :
    readItemsF (fuel + 2) (0x83 :: s) = (.ok ([], 1), s) := by
  simp only [readItemsF, readRecordF_sentinel]

theorem readRecordHead_structOpen (s : List Nat) :
    readRecordHead (0x03 :: s) = (.ok (1, TypeStruct, 0, []), s) := rfl

theorem readRecordHead_emptyAvp (s : List Nat) :
    readRecordHead (0x05 :: s) = (.ok (1, TypeAVP, 0, []), s) := rfl

theorem readItemsF_pairsWire (pairs : List (List Nat × Int)) :
    ∀ (fuel : Nat) (rest : List Nat),
      2 * pairs.length + 2 ≤ fuel →
      (∀ p ∈ pairs, p.1.length + 1 < 2 ^ 32 ∧ 0 ≤ p.2 ∧ p.2 < 2 ^ 32) →
      readItemsF fuel (pairsWire pairs ++ 0x83 :: rest) =
        (.ok (pairItems pairs, (pairsWire pairs).length + 1), rest) := by
  induction pairs with
  | nil =>
    intro fuel rest hfuel hp
    match fuel, hfuel with
    | f + 2, _ =>
      simp only [pairsWire, List.nil_append]
      rw [readItemsF_sentinel]
      rfl
  | cons p tl ih =>
    intro fuel rest hfuel hp
    match fuel, hfuel with
    | g + 2, hfuel =>
      obtain ⟨hk, h0, h32⟩ := hp p (List.mem_cons_self p tl)
      have htl : ∀ q ∈ tl, q.1.length + 1 < 2 ^ 32 ∧ 0 ≤ q.2 ∧ q.2 < 2 ^ 32 :=
        fun q hq => hp q (List.mem_cons_of_mem p hq)
      simp only [pairsWire, List.append_assoc]
      simp only [readItemsF]
      rw [readRecordF_avpWire g p.1 _ hk]
      dsimp only
      rw [if_neg (show ¬((avpRecord p.1).type ≠ TypeAVP) from by
        simp [avpRecord, Record.type])]
      rw [readRecordF_intWire g p.2 _ h0 h32]
      dsimp only
      have hih := ih (g + 1) rest (by simp only [List.length_cons] at hfuel ⊢; omega) htl
      simp only [readItemsF] at hih
      rw [hih]
      dsimp only
      simp only [avpRecord, intRecord, Record.stringValue, Record.value, Record.size,
        pairItems, List.map_cons, List.length_append, Prod.mk.injEq, Except.ok.injEq]
      exact ⟨⟨trivial, by omega⟩, trivial⟩

theorem wireWrap_length_ge (t : Nat) (p : List Nat) :
    1 + p.length ≤ (wireWrap t p).length := by
  unfold wireWrap
  split
  · simp only [List.length_cons]
    omega
  · simp only [List.length_cons, List.length_append]
    omega

theorem pairsWire_length_ge (pairs : List (List Nat × Int)) :
    3 * pairs.length ≤ (pairsWire pairs).length := by
  induction pairs with
  | nil => simp [pairsWire]
  | cons p tl ih =>
    have h1 := wireWrap_length_ge TypeAVP (p.1 ++ [0x00])
    have h2 : 1 ≤ (intWire p.2).length := by
      unfold intWire
      split
      · simp
      · have := wireWrap_length_ge TypeInt (intToBytesBE p.2)
        omega
    simp only [pairsWire, List.length_append, List.length_cons]
    unfold avpWire
    simp only [List.length_append, List.length_cons, List.length_nil] at h1 ⊢
    omega

theorem readRecordF_structWire (pairs : List (List Nat × Int)) (fuel : Nat)
    (rest : List Nat) (hfuel : 2 * pairs.length + 3 ≤ fuel)
    (hp : ∀ p ∈ pairs, p.1.length + 1 < 2 ^ 32 ∧ 0 ≤ p.2 ∧ p.2 < 2 ^ 32) :
    readRecordF fuel (structWire pairs ++ rest) =
      (.ok ⟨(structWire pairs).length, TypeStruct, .vstruct (pairItems pairs)⟩, rest) := by
  match fuel, hfuel with
  | f + 1, hfuel =>
    simp only [structWire, List.cons_append, List.append_assoc, List.nil_append]
    simp only [readRecordF, readRecordHead_structOpen]
    rw [if_neg (by norm_num [TypeStruct, TypeAVP, TypeString])]
    rw [if_neg (by norm_num [TypeStruct, TypeInt])]
    rw [if_neg (by norm_num [TypeStruct, TypeDouble])]
    simp only [if_true, ite_true]
    rw [readItemsF_pairsWire pairs f rest (by omega) hp]
    simp only [List.length_cons, List.length_append, List.length_nil]
    have hsz : 1 + ((pairsWire pairs).length + 1) =
        (pairsWire pairs).length + (0 + 1) + 1 := by omega
    rw [hsz]

/-!  ### Arbitrarily deep nesting

`deepStruct d` is a well-formed wire encoding of structs nested `d + 1`
levels deep: level `d + 1` is a struct with a single entry whose key is
the empty attribute name and whose value is the level-`d` struct.
`deepRecord d` is the record it decodes to. -/

/-- A struct wire nested `d + 1` levels deep. -/
def deepStruct : Nat → List Nat
  | 0 => [0x03, 0x83]
  | d + 1 => 0x03 :: 0x05 :: (deepStruct d ++ [0x83])

/-- The decoded form of `deepStruct d`. -/
def deepRecord : Nat → Record
  | 0 => ⟨2, TypeStruct, .vstruct []⟩
  | d + 1 => ⟨3 + (deepRecord d).size, TypeStruct, .vstruct [⟨[], deepRecord d⟩]⟩

theorem deepStruct_length (d : Nat) : (deepStruct d).length = 3 * d + 2 := by
  induction d with
  | zero => rfl
  | succ n ih =>
    simp only [deepStruct, List.length_cons, List.length_append, ih]
    simp
    omega

theorem readRecordF_emptyAvp (fuel : Nat) (s : List Nat) :
    readRecordF (fuel + 1) (0x05 :: s) = (.ok ⟨1, TypeAVP, .vstr []⟩, s) := rfl

theorem readRecordF_deepStruct (d : Nat) :
    ∀ (fuel : Nat) (rest : List Nat), 2 * d + 3 ≤ fuel →
      readRecordF fuel (deepStruct d ++ rest) = (.ok (deepRecord d), rest) := by
  induction d with
  | zero =>
    intro fuel rest hfuel
    obtain ⟨f, rfl⟩ : ∃ f, fuel = f + 1 := ⟨fuel - 1, by omega⟩
    simp only [deepStruct, List.cons_append, List.nil_append]
    simp only [readRecordF, readRecordHead_structOpen]
    rw [if_neg (by norm_num [TypeStruct, TypeAVP, TypeString])]
    rw [if_neg (by norm_num [TypeStruct, TypeInt])]
    rw [if_neg (by norm_num [TypeStruct, TypeDouble])]
    simp only [if_true, ite_true]
    obtain ⟨g, rfl⟩ : ∃ g, f = g + 2 := ⟨f - 2, by omega⟩
    rw [readItemsF_sentinel g rest]
    rfl
  | succ d ih =>
    intro fuel rest hfuel
    obtain ⟨f, rfl⟩ : ∃ f, fuel = f + 1 := ⟨fuel - 1, by omega⟩
    simp only [deepStruct, List.cons_append, List.append_assoc, List.nil_append]
    simp only [readRecordF, readRecordHead_structOpen]
    rw [if_neg (by norm_num [TypeStruct, TypeAVP, TypeString])]
    rw [if_neg (by norm_num [TypeStruct, TypeInt])]
    rw [if_neg (by norm_num [TypeStruct, TypeDouble])]
    simp only [if_true, ite_true]
    obtain ⟨g, rfl⟩ : ∃ g, f = g + 1 := ⟨f - 1, by omega⟩
    simp only [readItemsF]
    obtain ⟨h, rfl⟩ : ∃ h, g = h + 1 := ⟨g - 1, by omega⟩
    rw [readRecordF_emptyAvp h _]
    dsimp only
    rw [if_neg (show ¬((Record.mk 1 TypeAVP (.vstr [])).type ≠ TypeAVP) from by
      simp [Record.type])]
    rw [ih (h + 1) (0x83 :: rest) (by omega)]
    dsimp only
    obtain ⟨k, rfl⟩ : ∃ k, h = k + 1 := ⟨h - 1, by omega⟩
    rw [readItemsF_sentinel k rest]
    dsimp only
    have hstr : (Record.mk 1 TypeAVP (Value.vstr [])).stringValue = ([] : List Nat) := rfl
    have hsz1 : (Record.mk 1 TypeAVP (Value.vstr [])).size = 1 := rfl
    simp only [hstr, hsz1, deepRecord]
    rw [show 1 + (1 + (deepRecord d).size + 1) = 3 + (deepRecord d).size from by omega]

/-- `ReadRecord` decodes a `d + 1`-deep nested struct successfully for
every `d`: there is no depth limit. -/
theorem ReadRecord_deepStruct (d : Nat) :
    ReadRecord (deepStruct d) = (.ok (deepRecord d), []) := by
  unfold ReadRecord
  rw [← List.append_nil (deepStruct d)]
  apply readRecordF_deepStruct
  rw [List.append_nil, deepStruct_length]
  omega

/-- The payload bytes a record head parses come from the input stream,
and the payload cannot be longer than `record.size - 1`. -/
theorem readRecordHead_payload (s : List Nat) (rsize typ size : Nat)
    (payload s2 : List Nat)
    (h : readRecordHead s = (.ok (rsize, typ, size, payload), s2)) :
    (∀ b ∈ payload, b ∈ s) ∧ size + 1 ≤ rsize := by
  unfold readRecordHead at h
  split at h
  · simp at h
  · rename_i hb s0
    dsimp only at h
    split at h
    · simp at h
    · split at h
      · simp at h
      · rename_i sbuf s1x heq
        have hs1x : s1x = s0 ∨ s1x = s0.drop (hb >>> 4 &&& 0x7) := by
          by_cases hflag : hb >>> 7 = 1
          · rw [if_pos hflag] at heq
            obtain ⟨_, hdrop, _, _⟩ := readN_ok _ _ _ _ heq
            exact Or.inr hdrop
          · rw [if_neg hflag] at heq
            rw [Prod.mk.injEq] at heq
            exact Or.inl heq.2.symm
        split at h
        · simp at h
        · rename_i payload2 s2x heq2
          have hmem : ∀ b ∈ payload2, b ∈ s1x ∨ payload2 = [] := by
            by_cases hz : (if hb >>> 7 = 1 then beNat sbuf else hb >>> 4 &&& 0x7) = 0
            · rw [if_pos hz] at heq2
              rw [Prod.mk.injEq, Option.some.injEq] at heq2
              intro b hbm
              exact Or.inr heq2.1.symm
            · rw [if_neg hz] at heq2
              obtain ⟨hbuf, _, _, _⟩ := readN_ok _ _ _ _ heq2
              intro b hbm
              subst hbuf
              exact Or.inl (List.mem_of_mem_take hbm)
          rw [Prod.mk.injEq, Except.ok.injEq, Prod.mk.injEq, Prod.mk.injEq,
            Prod.mk.injEq] at h
          obtain ⟨⟨hr, ht, hz, hp⟩, hs⟩ := h
          subst hr
          subst hz
          subst hp
          constructor
          · intro b hbm
            rcases hmem b hbm with hbs1 | hemp
            · have hbs0 : b ∈ s0 := by
                rcases hs1x with h1 | h1
                · rw [h1] at hbs1
                  exact hbs1
                · rw [h1] at hbs1
                  exact List.mem_of_mem_drop hbs1
              exact List.mem_cons_of_mem hb hbs0
            · rw [hemp] at hbm
              simp at hbm
          · by_cases hflag : hb >>> 7 = 1
            · simp only [hflag, if_pos]
              omega
            · simp only [hflag, ite_false]
              omega

theorem readRecordsLoop_sum (fuel : Nat) :
    ∀ read total payload records out rest,
      read + payload.length ≤ total →
      (records.map Record.size).sum = read →
      readRecordsLoop fuel read total payload records = (.ok out, rest) →
      (out.map Record.size).sum = total := by
  induction fuel with
  | zero =>
    intro read total payload records out rest hinv hsum h
    simp only [readRecordsLoop] at h
    cases h
  | succ n ih =>
    intro read total payload records out rest hinv hsum h
    simp only [readRecordsLoop] at h
    split at h
    · rename_i hlt
      split at h
      · cases h
      · rename_i r p1 heq
        have hc := ReadRecord_ok_size payload r p1 heq
        refine ih (read + r.size) total p1 (records ++ [r]) out rest (by omega) ?_ h
        simp [hsum]
    · rename_i hge
      rw [Prod.mk.injEq, Except.ok.injEq] at h
      rw [← h.1, hsum]
      omega

theorem ReadPacket_sum (s : List Nat) (expectedCookie : Nat) (records : List Record)
    (rest : List Nat) (h : ReadPacket s expectedCookie = (.ok records, rest)) :
    ∃ hdr s1, ReadHeader s = (.ok hdr, s1) ∧
      (records.map Record.size).sum = hdr.payloadLength := by
  unfold ReadPacket at h
  split at h
  · simp at h
  · rename_i hdr s1 hheq
    split at h
    · simp at h
    · split at h
      · simp at h
      · rename_i payloadBytes s2 hfull
        rw [Prod.mk.injEq] at h
        obtain ⟨hr, hs⟩ := h
        obtain ⟨hbuf, hdrop, hle⟩ := readFull_ok _ _ _ _ hfull
        have hlen : payloadBytes.length = hdr.payloadLength := by
          subst hbuf
          simp only [List.length_take]
          omega
        refine ⟨hdr, s1, hheq, ?_⟩
        have hlp : readRecordsLoop (hdr.payloadLength + 1) 0 hdr.payloadLength
            payloadBytes [] =
            (.ok records, (readRecordsLoop (hdr.payloadLength + 1) 0 hdr.payloadLength
              payloadBytes []).2) :=
          Prod.ext_iff.mpr ⟨hr, rfl⟩
        exact readRecordsLoop_sum _ 0 hdr.payloadLength payloadBytes [] records _
          (by omega) rfl hlp

/-- Host values that the wire round trip preserves: integers
(non-negative, below `2^32` — the decoder accumulates unsigned bytes
and the encoder truncates to 32 bits), strings whose NUL-terminated
payload length fits the 32-bit size field, and doubles that the decoder
itself can produce (`float64(k) / 1000.0` for a wire integer `k`) AND
whose binary64 product `v * 1000` truncates back to `k` — the extra
condition is forced by float64 rounding: for many 3-decimal values,
such as 1.001, `int(v * 1000)` lands on `k - 1` and the value does not
survive the trip.  Structs are not encodable by this version
(`ValidTypes` admits only `int`, `string` and `float64`). -/
def Representable : Value → Prop
  | .vint n => 0 ≤ n ∧ n < 2 ^ 32
  | .vstr str => str.length + 1 < 2 ^ 32
  | .vdouble x => ∃ k : Int, 0 ≤ k ∧ k < 2 ^ 32 ∧
      x = f64div (f64ofInt k) f64_1000 ∧ f64toInt (f64mul x f64_1000) = k
  | .vstruct _ => False

/-- Claim C1 (amended): the round-trip law holds for representable
integers and strings, but for doubles only on the quantization-stable
subset — decoder-producible values `float64(k) / 1000.0` whose binary64
product `v * 1000` truncates back to `k`.  It fails for 3-decimal
doubles in general (see the counterexample at 1.001).  For every value
in this domain, creating a record, encoding it with `Record.Encode` and
decoding the produced bytes with `ReadRecord` yields a record whose
value equals the original (the decoded record's `size` reflects the
wire width chosen by the encoder; value equality is what the law
asserts). -/
theorem encode_decode_roundtrip (v : Value) (hv : Representable v) :
    ∃ r bytes rec, CreateRecord v = .ok r ∧ Record.Encode r = .ok bytes ∧
      ReadRecord bytes = (.ok rec, []) ∧ rec.value = v ∧ rec.type = r.type := by
  cases v with
  | vint n =>
    obtain ⟨h0, h32⟩ := hv
    refine ⟨⟨0, TypeInt, .vint n⟩, intWire n, intRecord n, rfl,
      encode_int_intWire 0 n, ?_, rfl, rfl⟩
    unfold ReadRecord
    rw [← List.append_nil (intWire n)]
    exact readRecordF_intWire _ n [] h0 h32
  | vstr str =>
    have hlen : str.length + 1 < 2 ^ 32 := hv
    refine ⟨⟨0, TypeString, .vstr str⟩, wireWrap TypeString (str ++ [0x00]),
      ⟨(wireWrap TypeString (str ++ [0x00])).length, TypeString, .vstr str⟩, rfl,
      encode_string 0 str, ?_, rfl, rfl⟩
    unfold ReadRecord
    have hd := readRecordF_wire_string
      (2 * (wireWrap TypeString (str ++ [0x00])).length) str [] hlen
    rw [List.append_nil] at hd
    exact hd
  | vdouble x =>
    obtain ⟨k, h0, h32, hx, htr⟩ := hv
    refine ⟨⟨0, TypeDouble, .vdouble x⟩, wireWrap TypeDouble (intToBytesBE k),
      ⟨(wireWrap TypeDouble (intToBytesBE k)).length, TypeDouble, .vdouble x⟩, rfl,
      ?_, ?_, rfl, rfl⟩
    · rw [encode_double, htr]
    · unfold ReadRecord
      have hd := readRecordF_wire_double
        (2 * (wireWrap TypeDouble (intToBytesBE k)).length) (intToBytesBE k) []
        (by have := intToBytesBE_length_le k; omega)
      rw [List.append_nil, accumInt_intToBytesBE k h0 h32, ← hx] at hd
      exact hd
  | vstruct items => exact absurd hv (by simp [Representable])

/-- Claim C1 witness: the round trip at the concrete double 1.588
(its closest binary64, decoded from the wire integer 1588) and the
hypotheses discharged at that value. -/
theorem encode_decode_roundtrip_witness :
    Representable (.vdouble (f64div (f64ofInt 1588) f64_1000)) ∧
    ∃ r bytes rec,
      CreateRecord (.vdouble (f64div (f64ofInt 1588) f64_1000)) = .ok r ∧
      Record.Encode r = .ok bytes ∧ ReadRecord bytes = (.ok rec, []) ∧
      rec.value = .vdouble (f64div (f64ofInt 1588) f64_1000) ∧ rec.type = r.type :=
  ⟨⟨1588, by decide, by decide, rfl, by decide⟩,
    encode_decode_roundtrip (.vdouble (f64div (f64ofInt 1588) f64_1000))
      ⟨1588, by decide, by decide, rfl, by decide⟩⟩

/-- Claim C1 counterexample: the 3-decimal double 1.001 (as its closest
binary64, which is what the decoder itself produces for the wire
integer 1001) does not round-trip.  In binary64, `1.001 * 1000` is
slightly below 1001, so `int(v * 1000)` is 1000: the encoder emits the
double record `[0x22, 0x03, 0xE8]` carrying 1000, and decoding it
yields the value 1.0, not 1.001. -/
theorem double_roundtrip_fails :
    Record.Encode ⟨0, TypeDouble, .vdouble (f64div (f64ofInt 1001) f64_1000)⟩ =
      .ok [0x22, 0x03, 0xE8] ∧
    ReadRecord [0x22, 0x03, 0xE8] =
      (.ok ⟨3, TypeDouble, .vdouble (f64ofInt 1)⟩, []) ∧
    f64ofInt 1 ≠ f64div (f64ofInt 1001) f64_1000 :=
  ⟨rfl, rfl, by decide⟩

/-- Claim C2 (amended): when the supplied cookie is non-zero and
differs from the header's cookie, `ReadPacket` returns a cookie
mismatch error and no records, but it does NOT consume the declared
payload: it stops right after the header, leaving the stream exactly
where `ReadHeader` left it. -/
theorem cookie_mismatch_stops_before_payload (s : List Nat) (e : Nat) (hdr : Header)
    (s1 : List Nat) (hh : ReadHeader s = (.ok hdr, s1)) (he0 : e ≠ 0)
    (hec : e ≠ hdr.cookie) :
    ReadPacket s e = (.error .cookieMismatch, s1) := by
  unfold ReadPacket
  rw [hh]
  dsimp only
  rw [if_pos ⟨he0, hec⟩]

/-- Claim C2 witness: a concrete packet whose header carries cookie 7,
read with expected cookie 5. -/
theorem cookie_mismatch_stops_before_payload_witness :
    ReadHeader [0xA1, 0x00, 0x02, 0x07, 0x00, 0x00] = (.ok ⟨2, 7⟩, [0x00, 0x00]) ∧
    ReadPacket [0xA1, 0x00, 0x02, 0x07, 0x00, 0x00] 5 =
      (.error .cookieMismatch, [0x00, 0x00]) :=
  ⟨rfl, cookie_mismatch_stops_before_payload _ 5 ⟨2, 7⟩ [0x00, 0x00] rfl
    (by decide) (by decide)⟩

/-- Claim C2 counterexample: the packet declares a 2-byte payload, yet
after the cookie-mismatch failure those 2 payload bytes are still
unread on the stream — the code returns before the payload read, so
the payload is not drained as the claim states. -/
theorem cookie_mismatch_payload_not_drained :
    ReadPacket [0xA1, 0x00, 0x02, 0x07, 0x00, 0x00] 5 =
      (.error .cookieMismatch, [0x00, 0x00]) ∧
    ([0x00, 0x00] : List Nat) ≠ [] :=
  ⟨rfl, by decide⟩

/-- Claim C3 (amended): `getMinBinarySizeOfInt` returns the smallest
count from 1,2,3,4 sufficient to hold the 32-bit truncation
`uint32 value` in UNSIGNED big-endian form (returning 0 when
`uint32 value = 0`, and never 8); in particular 42 needs 1 byte and
8388605 needs 3 bytes. -/
theorem minimal_size_unsigned32_form :
    (∀ value : Int,
      getMinBinarySizeOfInt value = specMinUnsigned (value % (2 ^ 32 : Int)).toNat) ∧
    getMinBinarySizeOfInt 42 = 1 ∧ getMinBinarySizeOfInt 8388605 = 3 :=
  ⟨getMinBinarySizeOfInt_eq, by decide, by decide⟩

/-- Claim C3 counterexample: at `-1` the function returns 4, although
one byte (`0xFF`) suffices to hold `-1` in two's-complement form — the
function does not compute the minimal two's-complement size the claim
describes (for 0 it even returns 0, outside the claimed set). -/
theorem minimal_size_not_twos_complement :
    getMinBinarySizeOfInt (-1) = 4 ∧ twosComplementMinSize (-1) = 1 ∧
    getMinBinarySizeOfInt 0 = 0 :=
  ⟨by decide, by decide, by decide⟩

/-- Claim C4 (packet length invariant): whenever `ReadPacket` decodes a
packet successfully, the sum of the consumed-byte counts
(`record.size`) of the returned top-level records equals the header's
declared payload length exactly; a decode that would overrun the
payload boundary fails inside the loop instead of returning records. -/
theorem packet_length_invariant (s : List Nat) (expectedCookie : Nat)
    (records : List Record) (rest : List Nat)
    (h : ReadPacket s expectedCookie = (.ok records, rest)) :
    ∃ hdr s1, ReadHeader s = (.ok hdr, s1) ∧
      (records.map Record.size).sum = hdr.payloadLength :=
  ReadPacket_sum s expectedCookie records rest h

/-- Claim C4 witness: a concrete packet with two one-byte records and
declared payload length 2. -/
theorem packet_length_invariant_witness :
    ReadPacket [0xA1, 0x00, 0x02, 0x07, 0x00, 0x00] 0 =
      (.ok [⟨1, TypeInt, .vint 0⟩, ⟨1, TypeInt, .vint 0⟩], []) ∧
    ∃ hdr s1, ReadHeader [0xA1, 0x00, 0x02, 0x07, 0x00, 0x00] = (.ok hdr, s1) ∧
      (([⟨1, TypeInt, .vint 0⟩, ⟨1, TypeInt, .vint 0⟩] : List Record).map
        Record.size).sum = hdr.payloadLength :=
  ⟨rfl, packet_length_invariant [0xA1, 0x00, 0x02, 0x07, 0x00, 0x00] 0
    [⟨1, TypeInt, .vint 0⟩, ⟨1, TypeInt, .vint 0⟩] [] rfl⟩

/-- Claim C5: a struct wire decodes to the ordered sequence of its
key/value pairs, in wire order, with duplicate keys all retained — the
decoded items are literally `pairs.map`, so a repeated key yields two
items and a later pair never overwrites an earlier one. -/
theorem struct_items_ordered_with_duplicates (pairs : List (List Nat × Int))
    (hp : ∀ p ∈ pairs, p.1.length + 1 < 2 ^ 32 ∧ 0 ≤ p.2 ∧ p.2 < 2 ^ 32) :
    ReadRecord (structWire pairs) =
      (.ok ⟨(structWire pairs).length, TypeStruct, .vstruct (pairItems pairs)⟩, []) := by
  unfold ReadRecord
  have hb : 2 * pairs.length + 3 ≤ 2 * (structWire pairs).length + 1 := by
    have hlb := pairsWire_length_ge pairs
    simp only [structWire, List.length_cons, List.length_append]
    omega
  have hd := readRecordF_structWire pairs _ [] hb hp
  rw [List.append_nil] at hd
  exact hd

/-- Claim C5 witness: a struct with the duplicate key `"a"` twice and
then `"b"`: all three items come back, in order. -/
theorem struct_items_ordered_with_duplicates_witness :
    (∀ p ∈ ([([0x61], 1), ([0x61], 2), ([0x62], 3)] : List (List Nat × Int)),
      p.1.length + 1 < 2 ^ 32 ∧ 0 ≤ p.2 ∧ p.2 < 2 ^ 32) ∧
    ReadRecord (structWire [([0x61], 1), ([0x61], 2), ([0x62], 3)]) =
      (.ok ⟨(structWire [([0x61], 1), ([0x61], 2), ([0x62], 3)]).length, TypeStruct,
        .vstruct (pairItems [([0x61], 1), ([0x61], 2), ([0x62], 3)])⟩, []) :=
  ⟨by decide, struct_items_ordered_with_duplicates _ (by decide)⟩

/-- Claim C6 (amended): `ReadRecord` imposes no maximum nesting depth —
for every `d`, a struct nested `d + 1` levels deep decodes successfully
(the recursion is bounded only by the input, each nesting level
consuming input bytes); no depth-exceeded error exists in the code. -/
theorem no_nesting_depth_limit (d : Nat) :
    ReadRecord (deepStruct d) = (.ok (deepRecord d), []) :=
  ReadRecord_deepStruct d

/-- Claim C6 counterexample: a struct nested 101 levels deep (302 wire
bytes) decodes successfully instead of failing with a depth error. -/
theorem deep_nesting_accepted :
    ReadRecord (deepStruct 100) = (.ok (deepRecord 100), []) ∧
    (deepStruct 100).length = 302 :=
  ⟨ReadRecord_deepStruct 100, by decide⟩

/-- Claim C7: `WritePacket` called with an empty list of values fails
with the missing-values error; the error is returned before anything is
produced for the sink. -/
theorem writePacket_empty_values_fails (cookie : Nat) :
    WritePacket cookie [] = .error .missingValues := rfl

/-- Claim C8: while decoding a struct, a key record whose tag is not
`TypeAVP` makes the item loop fail with the struct-not-avp protocol
error (first conjunct, and concretely at an integer key, third
conjunct), while an attribute-name key followed by a supported value
record is accepted and appended as a pair (second conjunct). -/
theorem struct_keys_require_avp_tag :
    (∀ fuel s key s1, readRecordF fuel s = (.ok key, s1) → key.type ≠ TypeAVP →
      readItemsF (fuel + 1) s = (.error (.structNotAvp key.type), s1)) ∧
    (∀ (key : List Nat) (n : Int), key.length + 1 < 2 ^ 32 → 0 ≤ n → n < 2 ^ 32 →
      ReadRecord (structWire [(key, n)]) =
        (.ok ⟨(structWire [(key, n)]).length, TypeStruct,
          .vstruct [⟨key, intRecord n⟩]⟩, [])) ∧
    ReadRecord [0x03, 0x10, 0x2A] = (.error (.structNotAvp TypeInt), []) := by
  refine ⟨?_, ?_, rfl⟩
  · intro fuel s key s1 hk hne
    simp only [readItemsF]
    rw [hk]
    dsimp only
    rw [if_pos hne]
  · intro key n hk h0 h32
    unfold ReadRecord
    have hb : 2 * ([(key, n)] : List (List Nat × Int)).length + 3 ≤
        2 * (structWire [(key, n)]).length + 1 := by
      have hlb := pairsWire_length_ge [(key, n)]
      simp only [structWire, List.length_cons, List.length_append] at hlb ⊢
      omega
    have hd := readRecordF_structWire [(key, n)] _ [] hb (by
      intro p hp
      simp only [List.mem_singleton] at hp
      subst hp
      exact ⟨hk, h0, h32⟩)
    rw [List.append_nil] at hd
    exact hd

/-- Claim C8 witness: an integer record in key position is rejected
with the struct-not-avp error, and the key `"a"` with value 42 is
accepted as one pair. -/
theorem struct_keys_require_avp_tag_witness :
    readItemsF 4 [0x10, 0x2A] = (.error (.structNotAvp TypeInt), []) ∧
    ReadRecord (structWire [([0x61], 42)]) =
      (.ok ⟨(structWire [([0x61], 42)]).length, TypeStruct,
        .vstruct [⟨[0x61], intRecord 42⟩]⟩, []) :=
  ⟨struct_keys_require_avp_tag.1 3 [0x10, 0x2A] ⟨2, TypeInt, .vint 42⟩ [] rfl
    (by decide),
   struct_keys_require_avp_tag.2.1 [0x61] 42 (by decide) (by decide) (by decide)⟩

/-- Claim C9 (amended): an integer record occupying at most 8 wire
bytes (hence a payload of at most 7 bytes) always decodes to a
non-negative value, because the payload bytes are accumulated as
unsigned big-endian digits from zero; with 8 or more payload bytes the
64-bit accumulation can wrap and produce a negative value. -/
theorem short_int_payload_nonneg (s : List Nat) (r : Record) (s1 : List Nat) (n : Int)
    (hwf : ∀ b ∈ s, b < 256) (h : ReadRecord s = (.ok r, s1))
    (hval : r.value = .vint n) (hsz : r.size ≤ 8) : 0 ≤ n := by
  unfold ReadRecord at h
  simp only [readRecordF] at h
  split at h
  · simp at h
  · rename_i rsize typ size payload s2 hhead
    obtain ⟨hacc, hplen, hpos⟩ := readRecordHead_ok _ _ _ _ _ _ hhead
    obtain ⟨hmem, hszr⟩ := readRecordHead_payload _ _ _ _ _ _ hhead
    split at h
    · rw [Prod.mk.injEq, Except.ok.injEq] at h
      obtain ⟨hr, _⟩ := h
      subst hr
      simp [Record.value] at hval
    · split at h
      · rw [Prod.mk.injEq, Except.ok.injEq] at h
        obtain ⟨hr, hs2⟩ := h
        subst hr
        simp only [Record.value, Value.vint.injEq] at hval
        simp only [Record.size] at hsz
        subst hval
        have hp7 : payload.length ≤ 7 := by omega
        have hpb : ∀ b ∈ payload, b < 256 := fun b hb => hwf b (hmem b hb)
        have hbe : beNat payload < 2 ^ 63 := by
          have h1 := beNat_lt payload hpb
          have h2 : (256 : Nat) ^ payload.length ≤ 256 ^ 7 :=
            Nat.pow_le_pow_right (by norm_num) hp7
          calc beNat payload < 256 ^ payload.length := h1
            _ ≤ 256 ^ 7 := h2
            _ < 2 ^ 63 := by norm_num
        rw [accumInt_eq_of_lt payload hbe]
        exact Int.natCast_nonneg _
      · split at h
        · rw [Prod.mk.injEq, Except.ok.injEq] at h
          obtain ⟨hr, _⟩ := h
          subst hr
          simp [Record.value] at hval
        · split at h
          · split at h
            · simp at h
            · rw [Prod.mk.injEq, Except.ok.injEq] at h
              obtain ⟨hr, _⟩ := h
              subst hr
              simp [Record.value] at hval
          · simp at h

/-- Claim C9 witness: the two-byte integer record `10 2A` decodes to
42, which is non-negative by the theorem. -/
theorem short_int_payload_nonneg_witness :
    ReadRecord [0x10, 0x2A] = (.ok ⟨2, TypeInt, .vint 42⟩, []) ∧ 0 ≤ (42 : Int) :=
  ⟨rfl, short_int_payload_nonneg [0x10, 0x2A] ⟨2, TypeInt, .vint 42⟩ [] 42
    (by decide) rfl rfl (by decide)⟩

/-- Claim C9 counterexample: an integer record with an 8-byte payload
of `0xFF` bytes decodes successfully to `-1` — the 64-bit accumulation
wraps, so decoded integers are not always non-negative. -/
theorem int_decode_wraps_negative :
    ReadRecord [0x90, 0x08, 0xFF, 0xFF, 0xFF, 0xFF, 0xFF, 0xFF, 0xFF, 0xFF] =
      (.ok ⟨10, TypeInt, .vint (-1)⟩, []) ∧ (-1 : Int) < 0 :=
  ⟨rfl, by decide⟩

theorem encodeValues_error (values : List Value) :
    ∀ e, encodeValues values = .error e → e = .typeConvert := by
  induction values with
  | nil =>
    intro e h
    simp [encodeValues] at h
  | cons v tl ih =>
    intro e h
    cases v with
    | vint n =>
      simp only [encodeValues, CreateRecord] at h
      rw [encode_int_intWire 0 n] at h
      dsimp only at h
      split at h
      · rename_i e2 heq
        rw [Except.error.injEq] at h
        rw [← h]
        exact ih e2 heq
      · simp at h
    | vstr str =>
      simp only [encodeValues, CreateRecord] at h
      rw [encode_string 0 str] at h
      dsimp only at h
      split at h
      · rename_i e2 heq
        rw [Except.error.injEq] at h
        rw [← h]
        exact ih e2 heq
      · simp at h
    | vdouble q =>
      simp only [encodeValues, CreateRecord] at h
      rw [encode_double 0 q] at h
      dsimp only at h
      split at h
      · rename_i e2 heq
        rw [Except.error.injEq] at h
        rw [← h]
        exact ih e2 heq
      · simp at h
    | vstruct items =>
      simp only [encodeValues, CreateRecord] at h
      rw [Except.error.injEq] at h
      exact h.symm

/-- Claim C10: in the v3 source `getMinBinarySizeOfInt` truncates its
argument to 32 bits and always returns a size of at most 4, so
`intToBytesBE` never returns more than 4 bytes and the
packet-length-too-big branch of `WritePacket` is unreachable for every
input. -/
theorem v3_size_bounds_lengthTooBig_unreachable :
    (∀ value : Int, getMinBinarySizeOfInt value =
      getMinBinarySizeOfInt (value % (2 ^ 32 : Int))) ∧
    (∀ value : Int, getMinBinarySizeOfInt value ≤ 4) ∧
    (∀ value : Int, (intToBytesBE value).length ≤ 4) ∧
    (∀ (cookie : Nat) (values : List Value),
      WritePacket cookie values ≠ .error .lengthTooBig) := by
  refine ⟨?_, getMinBinarySizeOfInt_le, intToBytesBE_length_le, ?_⟩
  · intro value
    rw [getMinBinarySizeOfInt_eq, getMinBinarySizeOfInt_eq,
      Int.emod_emod_of_dvd value dvd_rfl]
  · intro cookie values hcon
    unfold WritePacket at hcon
    split at hcon
    · simp at hcon
    · split at hcon
      · rename_i e heq
        have he := encodeValues_error values e heq
        subst he
        simp at hcon
      · dsimp only at hcon
        split at hcon
        · rename_i payload heq hgt
          have hle := intToBytesBE_length_le ((payload.length : Int))
          rw [show MaxSizeOfLength = 4 from rfl] at hgt
          omega
        · simp at hcon

end Binrpc
